import Mathlib

/-!
Verification of the `obv_lexer` tokenizer (`src/lexer/core.rs`,
`src/lexer/token.rs`, `src/lexer/error.rs`) against its natural-language
specification.

The Rust lexer keeps a borrowed input string and a byte offset
(`Lexer { input, position }`), and walks the input with anchored regexes
from the `regex` crate.  The embedding below represents the input as a
`List Char` (one entry per Unicode codepoint, exactly what `str::chars`
yields for valid UTF-8) and the cursor as the pair of the remaining
suffix `input[position..]` together with the byte offset `position`;
byte offsets are advanced by the UTF-8 size of the consumed codepoints,
mirroring `mat.end()` on the Rust side.

The anchored regexes are embedded as the character-class scanners they
denote:
  * `\A[a-zA-Z_]\w*\b`  (IDENTIFIER_RE)
  * `\A[0-9]+\b`        (CONSTANT_RE)
  * `\A\(` `\A\)` `\A\x7b` `\A\x7d` `\A;` (punctuation)
  * `\A\s+`             (WHITESPACE_RE)
  * `\A//.*`            (SINGLE_LINE_COMMENTS_RE; `.` excludes newline)
  * `\A(?s)/\*.*?\*/`   (MULTI_LINE_COMMENTS_RE; `.` includes newline,
    the lazy `.*?` stops at the first `*/`, and the whole pattern fails
    to match when no `*/` follows)
In the `regex` crate the classes `\w`, `\s` and the assertion `\b` are
Unicode-aware by default; the class definitions below follow that.
-/

namespace ObvLexer

/-- The token type of `src/lexer/token.rs`: three keywords, identifiers
carrying their text, 32-bit signed integer constants (embedded as `Int`),
and five punctuation tokens. -/
inductive Token where
  | KwInt
  | KwVoid
  | KwReturn
  | Identifier (text : String)
  | Constant (value : Int)
  | OpenParen
  | CloseParen
  | OpenBrace
  | CloseBrace
  | Semicolon
deriving DecidableEq, Repr

/-- The error type of `src/lexer/error.rs`: an unexpected codepoint with its
byte offset, an out-of-range integer with its original text and byte offset,
and the defensive `NoMatch`. -/
inductive LexerError where
  | UnexpectedCharacter (char : Char) (pos : Nat)
  | InvalidInteger (value : String) (pos : Nat)
  | NoMatch (pos : Nat)
deriving DecidableEq, Repr

/-- The cursor of `Lexer { input, position }`: `rest` is the remaining
suffix `input[position..]` as a codepoint list and `position` the byte
offset already consumed.  The two fields together carry exactly the
information of the Rust struct. -/
structure LexerState where
  rest : List Char
  position : Nat
deriving DecidableEq, Repr

/-- UTF-8 byte length of one codepoint (what `char::len_utf8` returns and
what the byte-offset arithmetic `self.position += mat.end()` advances by). -/
def charBytes (c : Char) : Nat :=
  if c.toNat < 0x80 then 1
  else if c.toNat < 0x800 then 2
  else if c.toNat < 0x10000 then 3
  else 4

/-- UTF-8 byte length of a codepoint list. -/
def utf8Len (cs : List Char) : Nat :=
  (cs.map charBytes).sum

/-- The `regex` crate's `\s` (Unicode mode, the default): the Unicode
White_Space property, a fixed set of 25 codepoints. -/
def isSpaceChar (c : Char) : Bool :=
  (0x9 ≤ c.toNat && c.toNat ≤ 0xD) || c.toNat == 0x20 || c.toNat == 0x85 ||
  c.toNat == 0xA0 || c.toNat == 0x1680 || (0x2000 ≤ c.toNat && c.toNat ≤ 0x200A) ||
  c.toNat == 0x2028 || c.toNat == 0x2029 || c.toNat == 0x202F ||
  c.toNat == 0x205F || c.toNat == 0x3000

/-- The `regex` crate's `\w` (Unicode mode, the default):
`[\p{Alphabetic}\p{M}\p{Nd}\p{Pc}\p{Join_Control}]`.  Embedded exactly on
the codepoints below U+0100: the ASCII word characters `[a-zA-Z0-9_]`
together with the Latin-1 letters ª µ º À–Ö Ø–ö ø–ÿ.  Codepoints at or
above U+0100 (some of which are also word characters) are left outside
the classified range; every concrete input evaluated in this development
lies below U+0100, and the quantified theorems below do not depend on the
classification of any individual codepoint. -/
def isWordChar (c : Char) : Bool :=
  (0x30 ≤ c.toNat && c.toNat ≤ 0x39) || (0x41 ≤ c.toNat && c.toNat ≤ 0x5A) ||
  c.toNat == 0x5F || (0x61 ≤ c.toNat && c.toNat ≤ 0x7A) ||
  c.toNat == 0xAA || c.toNat == 0xB5 || c.toNat == 0xBA ||
  (0xC0 ≤ c.toNat && c.toNat ≤ 0xD6) || (0xD8 ≤ c.toNat && c.toNat ≤ 0xF6) ||
  (0xF8 ≤ c.toNat && c.toNat ≤ 0xFF)

/-- The class `[a-zA-Z_]` opening IDENTIFIER_RE. -/
def isIdentStart (c : Char) : Bool :=
  (0x41 ≤ c.toNat && c.toNat ≤ 0x5A) || c.toNat == 0x5F ||
  (0x61 ≤ c.toNat && c.toNat ≤ 0x7A)

/-- The class `[0-9]` of CONSTANT_RE. -/
def isAsciiDigit (c : Char) : Bool :=
  0x30 ≤ c.toNat && c.toNat ≤ 0x39

/-- Index of the first occurrence of the two-codepoint sequence `*/`, the
position where the lazy `.*?` of MULTI_LINE_COMMENTS_RE stops.  `none` when
no `*/` occurs, in which case the whole regex fails to match. -/
def findClose : List Char → Option Nat
  | '*' :: '/' :: _ => some 0
  | _ :: rest => (findClose rest).map (fun i => i + 1)
  | [] => none

/-- One byte in regex-match terms: `.` of SINGLE_LINE_COMMENTS_RE matches
every codepoint except the newline. -/
def notNewline (c : Char) : Bool :=
  !(c == '\n')

/-- The loop of `skip_whitespaces_and_comments` (core.rs lines 142-206),
fuelled: each iteration tries WHITESPACE_RE, then SINGLE_LINE_COMMENTS_RE,
then MULTI_LINE_COMMENTS_RE at the current position, consumes the match and
repeats; when nothing matches (or input is exhausted) it stops.  Since `/`
is not a whitespace codepoint the comment patterns are dispatched first on
the two-codepoint prefix without changing the outcome.  Returns the number
of bytes consumed (the sum of the `mat.end()` values the Rust loop adds to
`self.position`) with the remaining suffix.  Every continuing iteration
consumes at least one codepoint, so fuel `cs.length + 1` (supplied by
`skipTrivia` below) never runs out. -/
def skipTriviaF : Nat → List Char → Nat × List Char
  | 0, cs => (0, cs)
  | fuel + 1, cs =>
    match cs with
    | [] => (0, [])
    | c :: rest =>
      if isSpaceChar c then
        (utf8Len (List.takeWhile isSpaceChar (c :: rest)) +
           (skipTriviaF fuel (List.dropWhile isSpaceChar (c :: rest))).1,
         (skipTriviaF fuel (List.dropWhile isSpaceChar (c :: rest))).2)
      else
        match rest with
        | [] => (0, c :: rest)
        | d :: rest2 =>
          if c = '/' ∧ d = '/' then
            (2 + utf8Len (List.takeWhile notNewline rest2) +
               (skipTriviaF fuel (List.dropWhile notNewline rest2)).1,
             (skipTriviaF fuel (List.dropWhile notNewline rest2)).2)
          else if c = '/' ∧ d = '*' then
            match findClose rest2 with
            | some i =>
              (2 + utf8Len (List.take (i + 2) rest2) +
                 (skipTriviaF fuel (List.drop (i + 2) rest2)).1,
               (skipTriviaF fuel (List.drop (i + 2) rest2)).2)
            | none => (0, c :: rest)
          else (0, c :: rest)

/-- `skip_whitespaces_and_comments` on a remaining suffix: bytes consumed
and suffix left.  Fuel `cs.length + 1` is enough for the loop to run to its
natural break (each continuing iteration consumes at least one codepoint). -/
def skipTrivia (cs : List Char) : Nat × List Char :=
  skipTriviaF (cs.length + 1) cs

/-- The five single-byte punctuation regexes (core.rs lines 256-279), tried
in their source order; they are disjoint single-literal matches, so the
first hit is the only hit. -/
def punctToken (c : Char) : Option Token :=
  if c = '(' then some Token.OpenParen
  else if c = ')' then some Token.CloseParen
  else if c = '\x7b' then some Token.OpenBrace
  else if c = '\x7d' then some Token.CloseBrace
  else if c = ';' then some Token.Semicolon
  else none

/-- Word boundary `\b` at the end of a match whose last codepoint is a word
character: it holds exactly when the following codepoint (if any) is not a
word character. -/
def wordBoundary (cs : List Char) : Bool :=
  match cs with
  | [] => true
  | d :: _ => !isWordChar d

/-- IDENTIFIER_RE `\A[a-zA-Z_]\w*\b` as an anchored scanner: one
`[a-zA-Z_]` codepoint, the maximal following run of `\w` codepoints, then
`\b`.  Backtracking the greedy `\w*` can never help (any shorter cut sits
between two word characters), so the regex matches exactly when the
boundary holds after the maximal run — which it always does, the run being
maximal.  Returns the matched codepoints and the remaining suffix. -/
def identMatch (cs : List Char) : Option (List Char × List Char) :=
  match cs with
  | [] => none
  | c :: cr =>
    if isIdentStart c then
      if wordBoundary (List.dropWhile isWordChar cr) then
        some (c :: List.takeWhile isWordChar cr, List.dropWhile isWordChar cr)
      else none
    else none

/-- CONSTANT_RE `\A[0-9]+\b` as an anchored scanner: the maximal run of
digits, then `\b`.  Backtracking the greedy `[0-9]+` can never help (any
shorter cut sits between two digits), so the regex matches exactly when
the codepoint after the maximal digit run is not a word character. -/
def constMatch (cs : List Char) : Option (List Char × List Char) :=
  match cs with
  | [] => none
  | c :: cr =>
    if isAsciiDigit c then
      if wordBoundary (List.dropWhile isAsciiDigit cr) then
        some (c :: List.takeWhile isAsciiDigit cr, List.dropWhile isAsciiDigit cr)
      else none
    else none

/-- The decimal value of a digit run, as `str::parse::<i32>` computes it
before its range check. -/
def digitsVal (ds : List Char) : Nat :=
  ds.foldl (fun a c => 10 * a + (c.toNat - 0x30)) 0

/-- The KEYWORDS array (core.rs lines 96-100), in source order. -/
def KEYWORDS : List (String × Token) :=
  [( "int", Token.KwInt), ( "void", Token.KwVoid), ( "return", Token.KwReturn)]

/-- The keyword loop of `next_token_internal` (core.rs lines 291-301): the
first entry of KEYWORDS whose spelling equals the matched text, if any. -/
def keywordFind (val : String) : Option Token :=
  match KEYWORDS.find? (fun kv => kv.1 == val) with
  | some kv => some kv.2
  | none => none

/-- Phases 2 and 3 of `next_token_internal` (core.rs lines 239-371) on the
already-skipped slice `slice` sitting at byte offset `pos`
(`start_position_of_the_token`): try the five punctuation regexes, then
IDENTIFIER_RE (with the keyword loop), then CONSTANT_RE (with the i32
parse), and fall through to the error cases.  Returns the
`Option (Result Token LexerError)` together with the cursor after the call;
an empty slice is the `position >= input.len()` early `None` return. -/
def recognize (slice : List Char) (pos : Nat) : Option (Except LexerError Token) × LexerState :=
  match slice with
  | [] => (none, ⟨[], pos⟩)
  | c :: cr =>
    match punctToken c with
    | some t => (some (Except.ok t), ⟨cr, pos + 1⟩)
    | none =>
      match identMatch (c :: cr) with
      | some (w, wrest) =>
        -- the position advance `self.position += mat.end()` happens before
        -- the keyword loop runs, so both outcomes share the cursor
        ((match keywordFind (String.mk w) with
          | some kw => some (Except.ok kw)
          | none => some (Except.ok (Token.Identifier (String.mk w)))),
         ⟨wrest, pos + utf8Len w⟩)
      | none =>
        match constMatch (c :: cr) with
        | some (ds, drest) =>
          -- the position advance happens before the i32 parse, so both
          -- outcomes share the cursor
          ((if digitsVal ds ≤ 2147483647 then
              some (Except.ok (Token.Constant (Int.ofNat (digitsVal ds))))
            else
              some (Except.error (LexerError.InvalidInteger (String.mk ds) pos))),
           ⟨drest, pos + utf8Len ds⟩)
        | none =>
          -- phase 3: the slice is non-empty here, and `chars().next()` is
          -- its head; the `NoMatch` arm is the defensive fall-through
          ((match (c :: cr).head? with
            | some first => some (Except.error (LexerError.UnexpectedCharacter first pos))
            | none => some (Except.error (LexerError.NoMatch pos))),
           ⟨c :: cr, pos⟩)

/-- `next_token_internal` (core.rs lines 217-371): skip trivia (phase 1,
advancing the byte offset by the skipped bytes), then recognize at the new
position.  The `position >= input.len()` check of phase 1 is the empty
slice case of `recognize`. -/
def nextTokenInternal (s : LexerState) : Option (Except LexerError Token) × LexerState :=
  recognize (skipTrivia s.rest).2 (s.position + (skipTrivia s.rest).1)

/-- The `while let` loop of `tokenize_all` (core.rs lines 382-412),
fuelled: `Ok` pushes the token and continues, `Err` returns that error
alone, `None` returns the accumulated tokens.  Every `Ok` step consumes at
least one codepoint, so fuel `input.length + 1` (supplied by `tokenizeAll`)
never runs out. -/
def tokenizeAllAuxF : Nat → LexerState → List Token → Except LexerError (List Token)
  | 0, _, tokens => Except.ok tokens
  | fuel + 1, s, tokens =>
    match nextTokenInternal s with
    | (none, _) => Except.ok tokens
    | (some (Except.ok t), s2) => tokenizeAllAuxF fuel s2 (tokens ++ [t])
    | (some (Except.error e), _) => Except.error e

/-- `Lexer::new(input).tokenize_all()` on a codepoint list. -/
def tokenizeAll (input : List Char) : Except LexerError (List Token) :=
  tokenizeAllAuxF (input.length + 1) ⟨input, 0⟩ []

/-- `Lexer::new(input).tokenize_all()` on a string. -/
def tokenize (input : String) : Except LexerError (List Token) :=
  tokenizeAll input.data

/-- The specification's word-character class, stated for comparison with
the code's: spec §4.2 and the glossary restrict word characters (for both
match continuation and boundary termination) to ASCII letters, digits and
the underscore. -/
def specAsciiWordChar (c : Char) : Bool :=
  (0x30 ≤ c.toNat && c.toNat ≤ 0x39) || (0x41 ≤ c.toNat && c.toNat ≤ 0x5A) ||
  c.toNat == 0x5F || (0x61 ≤ c.toNat && c.toNat ≤ 0x7A)

/-- The scan driver characterized as a relation, for the all-or-error
statement: `Scans s ts` holds when repeated recognizer calls starting at
`s` reach end-of-input having produced exactly the tokens `ts` in order. -/
inductive Scans : LexerState → List Token → Prop where
  | eof (s : LexerState) : (nextTokenInternal s).1 = none → Scans s []
  | step (s : LexerState) (t : Token) (ts : List Token) :
      (nextTokenInternal s).1 = some (Except.ok t) →
      Scans (nextTokenInternal s).2 ts → Scans s (t :: ts)

/-- `ScanFails s e` holds when repeated recognizer calls starting at `s`
succeed for a while and then hit `e` as the first failed recognition. -/
inductive ScanFails : LexerState → LexerError → Prop where
  | here (s : LexerState) (e : LexerError) :
      (nextTokenInternal s).1 = some (Except.error e) → ScanFails s e
  | later (s : LexerState) (t : Token) (e : LexerError) :
      (nextTokenInternal s).1 = some (Except.ok t) →
      ScanFails (nextTokenInternal s).2 e → ScanFails s e

/-- The well-formed cursor states of a scan over `input`: the byte offset
and the remaining suffix partition the input's bytes. -/
def WFState (input : List Char) (s : LexerState) : Prop :=
  s.position + utf8Len s.rest = utf8Len input

lemma utf8Len_append (l1 l2 : List Char) :
    utf8Len (l1 ++ l2) = utf8Len l1 + utf8Len l2 := by
  simp [utf8Len]

lemma utf8Len_cons (c : Char) (l : List Char) :
    utf8Len (c :: l) = charBytes c + utf8Len l := by
  simp [utf8Len]

lemma utf8Len_takeWhile_dropWhile (p : Char → Bool) (l : List Char) :
    utf8Len (l.takeWhile p) + utf8Len (l.dropWhile p) = utf8Len l := by
  rw [← utf8Len_append, List.takeWhile_append_dropWhile]

lemma utf8Len_take_drop (n : Nat) (l : List Char) :
    utf8Len (l.take n) + utf8Len (l.drop n) = utf8Len l := by
  rw [← utf8Len_append, List.take_append_drop]

lemma length_dropWhile_le (p : Char → Bool) (l : List Char) :
    (l.dropWhile p).length ≤ l.length := by
  induction l with
  | nil => simp
  | cons c r ih =>
    by_cases h : p c
    · simp [List.dropWhile, h]; omega
    · simp [List.dropWhile, h]

/-- The trivia skipper accounts for every byte: bytes consumed plus bytes
remaining equal the bytes it started with (at any fuel). -/
lemma skipTriviaF_conserve (fuel : Nat) :
    ∀ cs : List Char, (skipTriviaF fuel cs).1 + utf8Len (skipTriviaF fuel cs).2 = utf8Len cs := by
  induction fuel with
  | zero => intro cs; simp [skipTriviaF]
  | succ f ih =>
    intro cs
    cases cs with
    | nil => simp [skipTriviaF, utf8Len]
    | cons c rest =>
      simp only [skipTriviaF]
      by_cases hs : isSpaceChar c
      · rw [if_pos hs]
        dsimp only
        have h := ih (List.dropWhile isSpaceChar (c :: rest))
        have h2 := utf8Len_takeWhile_dropWhile isSpaceChar (c :: rest)
        omega
      · rw [if_neg hs]
        cases rest with
        | nil => simp [utf8Len]
        | cons d rest2 =>
          dsimp only
          by_cases h1 : c = '/' ∧ d = '/'
          · rw [if_pos h1]
            obtain ⟨hc, hd⟩ := h1
            subst hc; subst hd
            dsimp only
            have h := ih (List.dropWhile notNewline rest2)
            have h2 := utf8Len_takeWhile_dropWhile notNewline rest2
            simp only [utf8Len_cons, show charBytes '/' = 1 from by decide]
            omega
          · rw [if_neg h1]
            by_cases h2 : c = '/' ∧ d = '*'
            · rw [if_pos h2]
              obtain ⟨hc, hd⟩ := h2
              subst hc; subst hd
              cases hf : findClose rest2 with
              | some i =>
                dsimp only
                have h := ih (List.drop (i + 2) rest2)
                have h3 := utf8Len_take_drop (i + 2) rest2
                simp only [utf8Len_cons, show charBytes '/' = 1 from by decide,
                  show charBytes '*' = 1 from by decide]
                omega
              | none => simp [utf8Len]
            · rw [if_neg h2]
              dsimp only
              omega

/-- The trivia skipper never lengthens the remaining suffix. -/
lemma skipTriviaF_length_le (fuel : Nat) :
    ∀ cs : List Char, (skipTriviaF fuel cs).2.length ≤ cs.length := by
  induction fuel with
  | zero => intro cs; simp [skipTriviaF]
  | succ f ih =>
    intro cs
    cases cs with
    | nil => simp [skipTriviaF]
    | cons c rest =>
      simp only [skipTriviaF]
      by_cases hs : isSpaceChar c
      · rw [if_pos hs]
        dsimp only
        have h := ih (List.dropWhile isSpaceChar (c :: rest))
        have h2 := length_dropWhile_le isSpaceChar (c :: rest)
        simp only [List.length_cons] at *
        omega
      · rw [if_neg hs]
        cases rest with
        | nil => simp
        | cons d rest2 =>
          dsimp only
          by_cases h1 : c = '/' ∧ d = '/'
          · rw [if_pos h1]
            dsimp only
            have h := ih (List.dropWhile notNewline rest2)
            have h2 := length_dropWhile_le notNewline rest2
            simp only [List.length_cons]
            omega
          · rw [if_neg h1]
            by_cases h2 : c = '/' ∧ d = '*'
            · rw [if_pos h2]
              cases hf : findClose rest2 with
              | some i =>
                dsimp only
                have h := ih (List.drop (i + 2) rest2)
                have h3 : (List.drop (i + 2) rest2).length ≤ rest2.length := by
                  rw [List.length_drop]; omega
                simp only [List.length_cons]
                omega
              | none => simp
            · rw [if_neg h2]

lemma skipTrivia_conserve (cs : List Char) :
    (skipTrivia cs).1 + utf8Len (skipTrivia cs).2 = utf8Len cs :=
  skipTriviaF_conserve (cs.length + 1) cs

lemma skipTrivia_length_le (cs : List Char) :
    (skipTrivia cs).2.length ≤ cs.length :=
  skipTriviaF_length_le (cs.length + 1) cs

lemma punctToken_charBytes (c : Char) (t : Token) (h : punctToken c = some t) :
    charBytes c = 1 := by
  simp only [punctToken] at h
  split_ifs at h with h1 h2 h3 h4 h5
  · subst h1; decide
  · subst h2; decide
  · subst h3; decide
  · subst h4; decide
  · subst h5; decide

lemma punctToken_not_identifier (c : Char) (t : Token) (str : String)
    (h : punctToken c = some t) : t ≠ Token.Identifier str := by
  simp only [punctToken] at h
  split_ifs at h <;>
    (injection h with h; subst h; intro hcon; exact Token.noConfusion hcon)

/-- A successful IDENTIFIER_RE match splits the slice into the non-empty
matched text and the remainder. -/
lemma identMatch_eq (cs w r : List Char) (h : identMatch cs = some (w, r)) :
    w ++ r = cs ∧ w ≠ [] := by
  cases cs with
  | nil => exact Option.noConfusion h
  | cons c cr =>
    simp only [identMatch] at h
    split_ifs at h with h1 h2
    · simp only [Option.some.injEq, Prod.mk.injEq] at h
      obtain ⟨hw, hr⟩ := h
      subst hw; subst hr
      constructor
      · simp [List.takeWhile_append_dropWhile]
      · simp

/-- A successful CONSTANT_RE match splits the slice into the non-empty
digit run and the remainder. -/
lemma constMatch_eq (cs ds r : List Char) (h : constMatch cs = some (ds, r)) :
    ds ++ r = cs ∧ ds ≠ [] := by
  cases cs with
  | nil => exact Option.noConfusion h
  | cons c cr =>
    simp only [constMatch] at h
    split_ifs at h with h1 h2
    · simp only [Option.some.injEq, Prod.mk.injEq] at h
      obtain ⟨hw, hr⟩ := h
      subst hw; subst hr
      constructor
      · simp [List.takeWhile_append_dropWhile]
      · simp

/-- The recognizer accounts for every byte: the cursor moves forward, and
position plus remaining bytes is preserved. -/
lemma recognize_conserve (slice : List Char) (pos : Nat) :
    pos ≤ (recognize slice pos).2.position ∧
      (recognize slice pos).2.position + utf8Len (recognize slice pos).2.rest =
        pos + utf8Len slice := by
  cases slice with
  | nil => simp [recognize, utf8Len]
  | cons c cr =>
    simp only [recognize]
    cases hp : punctToken c with
    | some t =>
      dsimp only
      have hb := punctToken_charBytes c t hp
      simp only [utf8Len_cons]
      omega
    | none =>
      dsimp only
      cases hi : identMatch (c :: cr) with
      | some p =>
        obtain ⟨w, wrest⟩ := p
        have hsplit := (identMatch_eq (c :: cr) w wrest hi).1
        have hlen : utf8Len w + utf8Len wrest = utf8Len (c :: cr) := by
          rw [← hsplit, utf8Len_append]
        dsimp only
        constructor <;> omega
      | none =>
        dsimp only
        cases hc : constMatch (c :: cr) with
        | some p =>
          obtain ⟨ds, drest⟩ := p
          have hsplit := (constMatch_eq (c :: cr) ds drest hc).1
          have hlen : utf8Len ds + utf8Len drest = utf8Len (c :: cr) := by
            rw [← hsplit, utf8Len_append]
          dsimp only
          constructor <;> omega
        | none =>
          dsimp only
          constructor <;> omega

/-- A successful recognition consumes at least one codepoint of the slice. -/
lemma recognize_ok_shrink (slice : List Char) (pos : Nat) (t : Token)
    (h : (recognize slice pos).1 = some (Except.ok t)) :
    (recognize slice pos).2.rest.length < slice.length := by
  cases slice with
  | nil => exact Option.noConfusion h
  | cons c cr =>
    simp only [recognize] at h ⊢
    cases hp : punctToken c with
    | some tk => dsimp only; simp
    | none =>
      rw [hp] at h
      dsimp only at h ⊢
      cases hi : identMatch (c :: cr) with
      | some p =>
        obtain ⟨w, wrest⟩ := p
        obtain ⟨hsplit, hne⟩ := identMatch_eq (c :: cr) w wrest hi
        have hlen : w.length + wrest.length = cr.length + 1 := by
          have h2 := congrArg List.length hsplit
          simpa [List.length_append] using h2
        have hw1 : 1 ≤ w.length := by
          cases w with
          | nil => exact absurd rfl hne
          | cons a as => simp
        dsimp only
        simp only [List.length_cons]
        omega
      | none =>
        rw [hi] at h
        dsimp only at h ⊢
        cases hc : constMatch (c :: cr) with
        | some p =>
          obtain ⟨ds, drest⟩ := p
          obtain ⟨hsplit, hne⟩ := constMatch_eq (c :: cr) ds drest hc
          have hlen : ds.length + drest.length = cr.length + 1 := by
            have h2 := congrArg List.length hsplit
            simpa [List.length_append] using h2
          have hd1 : 1 ≤ ds.length := by
            cases ds with
            | nil => exact absurd rfl hne
            | cons a as => simp
          dsimp only
          simp only [List.length_cons]
          omega
        | none =>
          rw [hc] at h
          simp only [List.head?_cons] at h
          exact Except.noConfusion (Option.some.inj h)

/-- The recognizer never produces the defensive `NoMatch`: the slice is
either empty (end of input, `none`) or has a first codepoint. -/
lemma recognize_no_noMatch (slice : List Char) (pos p : Nat) :
    (recognize slice pos).1 ≠ some (Except.error (LexerError.NoMatch p)) := by
  cases slice with
  | nil => intro h; exact Option.noConfusion h
  | cons c cr =>
    simp only [recognize]
    cases hp : punctToken c with
    | some t => dsimp only; intro h; exact Except.noConfusion (Option.some.inj h)
    | none =>
      dsimp only
      cases hi : identMatch (c :: cr) with
      | some p2 =>
        obtain ⟨w, wrest⟩ := p2
        dsimp only
        cases hk : keywordFind (String.mk w) <;> dsimp only <;> intro h <;>
          exact Except.noConfusion (Option.some.inj h)
      | none =>
        dsimp only
        cases hc : constMatch (c :: cr) with
        | some p2 =>
          obtain ⟨ds, drest⟩ := p2
          dsimp only
          by_cases hv : digitsVal ds ≤ 2147483647
          · rw [if_pos hv]; intro h
            exact Except.noConfusion (Option.some.inj h)
          · rw [if_neg hv]; intro h
            exact LexerError.noConfusion (Except.error.inj (Option.some.inj h))
        | none =>
          simp only [List.head?_cons]
          intro h
          exact LexerError.noConfusion (Except.error.inj (Option.some.inj h))

/-- Whatever the keyword loop returns comes out of the KEYWORDS array. -/
lemma keywordFind_cases (v : String) (kw : Token) (h : keywordFind v = some kw) :
    kw = Token.KwInt ∨ kw = Token.KwVoid ∨ kw = Token.KwReturn := by
  unfold keywordFind at h
  cases hf : List.find? (fun kv => kv.1 == v) KEYWORDS with
  | none => rw [hf] at h; exact Option.noConfusion h
  | some kv =>
    rw [hf] at h
    injection h with h
    have hmem := List.mem_of_find?_eq_some hf
    simp only [KEYWORDS, List.mem_cons, List.not_mem_nil, or_false] at hmem
    rcases hmem with h1 | h1 | h1 <;> subst h1 <;> simp at h <;> simp [← h]

/-- When the keyword loop finds nothing, the text differs from all three
keyword spellings. -/
lemma keywordFind_none_ne (v : String) (h : keywordFind v = none) :
    v ≠ "int" ∧ v ≠ "void" ∧ v ≠ "return" := by
  refine ⟨fun hv => ?_, fun hv => ?_, fun hv => ?_⟩ <;> subst hv <;>
    exact Option.noConfusion h

/-- Every `Identifier` the recognizer emits survived the keyword loop:
its text is not a keyword spelling. -/
lemma recognize_ok_identifier (slice : List Char) (pos : Nat) (str : String)
    (h : (recognize slice pos).1 = some (Except.ok (Token.Identifier str))) :
    keywordFind str = none := by
  cases slice with
  | nil => exact Option.noConfusion h
  | cons c cr =>
    simp only [recognize] at h
    cases hp : punctToken c with
    | some t =>
      rw [hp] at h
      dsimp only at h
      exact absurd (Except.ok.inj (Option.some.inj h))
        (punctToken_not_identifier c t str hp)
    | none =>
      rw [hp] at h
      dsimp only at h
      cases hi : identMatch (c :: cr) with
      | some p =>
        obtain ⟨w, wrest⟩ := p
        rw [hi] at h
        dsimp only at h
        cases hk : keywordFind (String.mk w) with
        | some kw =>
          rw [hk] at h
          have hkw := Except.ok.inj (Option.some.inj h)
          rcases keywordFind_cases (String.mk w) kw hk with h1 | h1 | h1 <;>
            (rw [h1] at hkw; exact Token.noConfusion hkw)
        | none =>
          rw [hk] at h
          have hkw := Except.ok.inj (Option.some.inj h)
          have hstr : String.mk w = str := Token.Identifier.inj hkw
          rw [← hstr]
          exact hk
      | none =>
        rw [hi] at h
        dsimp only at h
        cases hc : constMatch (c :: cr) with
        | some p =>
          obtain ⟨ds, drest⟩ := p
          rw [hc] at h
          dsimp only at h
          by_cases hv : digitsVal ds ≤ 2147483647
          · rw [if_pos hv] at h
            exact Token.noConfusion (Except.ok.inj (Option.some.inj h))
          · rw [if_neg hv] at h
            exact Except.noConfusion (Option.some.inj h)
        | none =>
          rw [hc] at h
          simp only [List.head?_cons] at h
          exact Except.noConfusion (Option.some.inj h)

/-- When the recognizer reports `UnexpectedCharacter`, the reported
position is the slice's own position, the cursor is exactly the incoming
slice and position (no advance past the offending codepoint), and the
reported character is the codepoint at the head of the slice. -/
lemma recognize_unexpectedChar (slice : List Char) (pos : Nat) (ch : Char) (p : Nat)
    (h : (recognize slice pos).1 = some (Except.error (LexerError.UnexpectedCharacter ch p))) :
    p = pos ∧ (recognize slice pos).2 = ⟨slice, pos⟩ ∧ slice.head? = some ch := by
  cases slice with
  | nil => exact Option.noConfusion h
  | cons c cr =>
    simp only [recognize] at h ⊢
    cases hp : punctToken c with
    | some t =>
      rw [hp] at h
      exact Except.noConfusion (Option.some.inj h)
    | none =>
      rw [hp] at h
      dsimp only at h ⊢
      cases hi : identMatch (c :: cr) with
      | some p2 =>
        obtain ⟨w, wrest⟩ := p2
        rw [hi] at h
        dsimp only at h
        cases hk : keywordFind (String.mk w) with
        | some kw =>
          rw [hk] at h
          exact Except.noConfusion (Option.some.inj h)
        | none =>
          rw [hk] at h
          exact Except.noConfusion (Option.some.inj h)
      | none =>
        rw [hi] at h
        dsimp only at h ⊢
        cases hc : constMatch (c :: cr) with
        | some p2 =>
          obtain ⟨ds, drest⟩ := p2
          rw [hc] at h
          dsimp only at h
          by_cases hv : digitsVal ds ≤ 2147483647
          · rw [if_pos hv] at h
            exact Except.noConfusion (Option.some.inj h)
          · rw [if_neg hv] at h
            exact LexerError.noConfusion (Except.error.inj (Option.some.inj h))
        | none =>
          rw [hc] at h
          simp only [List.head?_cons] at h ⊢
          have h2 := LexerError.UnexpectedCharacter.inj (Except.error.inj (Option.some.inj h))
          refine ⟨h2.2.symm, ?_, ?_⟩
          · trivial
          · rw [h2.1]

/-- A recognizer call moves the cursor forward and accounts for every
byte: position plus remaining bytes is invariant across the call. -/
lemma nextTokenInternal_conserve (s : LexerState) :
    s.position ≤ (nextTokenInternal s).2.position ∧
      (nextTokenInternal s).2.position + utf8Len (nextTokenInternal s).2.rest =
        s.position + utf8Len s.rest := by
  have h1 := skipTrivia_conserve s.rest
  have h2 := recognize_conserve (skipTrivia s.rest).2 (s.position + (skipTrivia s.rest).1)
  unfold nextTokenInternal
  omega

/-- A successful recognizer call consumes at least one codepoint. -/
lemma nextTokenInternal_ok_shrink (s : LexerState) (t : Token)
    (h : (nextTokenInternal s).1 = some (Except.ok t)) :
    (nextTokenInternal s).2.rest.length < s.rest.length := by
  have h1 := skipTrivia_length_le s.rest
  have h2 := recognize_ok_shrink (skipTrivia s.rest).2
    (s.position + (skipTrivia s.rest).1) t h
  unfold nextTokenInternal
  omega

/-- A recognizer call never yields `NoMatch`. -/
lemma nextTokenInternal_no_noMatch (s : LexerState) (p : Nat) :
    (nextTokenInternal s).1 ≠ some (Except.error (LexerError.NoMatch p)) :=
  recognize_no_noMatch (skipTrivia s.rest).2 (s.position + (skipTrivia s.rest).1) p

/-- The driver preserves the no-keyword-identifier property of the token
accumulator (at any fuel): every `Identifier` in a successful result either
was already accumulated or came out of the recognizer, and the recognizer
only emits identifiers the keyword loop rejected. -/
lemma tokenizeAllAuxF_identifier (fuel : Nat) :
    ∀ (s : LexerState) (acc ts : List Token),
      tokenizeAllAuxF fuel s acc = Except.ok ts →
      (∀ str, Token.Identifier str ∈ acc → keywordFind str = none) →
      ∀ str, Token.Identifier str ∈ ts → keywordFind str = none := by
  induction fuel with
  | zero =>
    intro s acc ts h hacc str hmem
    simp only [tokenizeAllAuxF] at h
    exact hacc str (Except.ok.inj h ▸ hmem)
  | succ f ih =>
    intro s acc ts h hacc str hmem
    simp only [tokenizeAllAuxF] at h
    cases hn : (nextTokenInternal s) with
    | mk r s2 =>
      rw [hn] at h
      cases r with
      | none => exact hacc str (Except.ok.inj h ▸ hmem)
      | some res =>
        cases res with
        | ok t =>
          refine ih s2 (acc ++ [t]) ts h (fun str2 hmem2 => ?_) str hmem
          rcases List.mem_append.1 hmem2 with h2 | h2
          · exact hacc str2 h2
          · have ht : t = Token.Identifier str2 := by
              rcases List.mem_singleton.1 h2 with h3
              exact h3.symm
            apply recognize_ok_identifier (skipTrivia s.rest).2
              (s.position + (skipTrivia s.rest).1) str2
            have hfst : (nextTokenInternal s).1 = some (Except.ok (Token.Identifier str2)) := by
              rw [hn, ht]
            exact hfst
        | error e => exact Except.noConfusion h

/-- The driver never invents tokens: at any fuel, a successful run returns
the accumulator followed by newly scanned tokens, and those tokens are
exactly a complete scan (`Scans`); a failed run returns exactly the first
failed recognition (`ScanFails`).  The fuel bound makes the fuelled loop
agree with the Rust `while let` loop. -/
lemma tokenizeAllAuxF_characterize (fuel : Nat) :
    ∀ (s : LexerState) (acc : List Token), s.rest.length < fuel →
      (∃ ts, tokenizeAllAuxF fuel s acc = Except.ok (acc ++ ts) ∧ Scans s ts) ∨
      (∃ e, tokenizeAllAuxF fuel s acc = Except.error e ∧ ScanFails s e) := by
  induction fuel with
  | zero => intro s acc h; omega
  | succ f ih =>
    intro s acc hlen
    simp only [tokenizeAllAuxF]
    cases hn : (nextTokenInternal s) with
    | mk r s2 =>
      cases r with
      | none =>
        left
        refine ⟨[], by simp, Scans.eof s ?_⟩
        rw [hn]
      | some res =>
        cases res with
        | ok t =>
          have hfst : (nextTokenInternal s).1 = some (Except.ok t) := by rw [hn]
          have hsnd : (nextTokenInternal s).2 = s2 := by rw [hn]
          have hshrink := nextTokenInternal_ok_shrink s t hfst
          rw [hsnd] at hshrink
          rcases ih s2 (acc ++ [t]) (by omega) with ⟨ts, hok, hscan⟩ | ⟨e, herr, hfail⟩
          · left
            refine ⟨t :: ts, by simpa using hok, Scans.step s t ts hfst ?_⟩
            rw [hsnd]
            exact hscan
          · right
            refine ⟨e, herr, ScanFails.later s t e hfst ?_⟩
            rw [hsnd]
            exact hfail
        | error e =>
          right
          refine ⟨e, rfl, ScanFails.here s e ?_⟩
          rw [hn]

/-- At any fuel, an error outcome of the driver is an error some
recognizer step produced. -/
lemma tokenizeAllAuxF_error_from_step (fuel : Nat) :
    ∀ (s : LexerState) (acc : List Token) (e : LexerError),
      tokenizeAllAuxF fuel s acc = Except.error e →
      ∃ s3, (nextTokenInternal s3).1 = some (Except.error e) := by
  induction fuel with
  | zero => intro s acc e h; exact Except.noConfusion h
  | succ f ih =>
    intro s acc e h
    simp only [tokenizeAllAuxF] at h
    cases hn : (nextTokenInternal s) with
    | mk r s2 =>
      rw [hn] at h
      cases r with
      | none => exact Except.noConfusion h
      | some res =>
        cases res with
        | ok t => exact ih s2 (acc ++ [t]) e h
        | error e2 =>
          refine ⟨s, ?_⟩
          rw [hn, Except.error.inj h]

/-- Digits are word characters (used by the boundary rule). -/
lemma isWordChar_of_digit (c : Char) (h : isAsciiDigit c = true) : isWordChar c = true := by
  simp only [isAsciiDigit, Bool.and_eq_true, decide_eq_true_eq] at h
  simp only [isWordChar, Bool.or_eq_true, Bool.and_eq_true, decide_eq_true_eq, beq_iff_eq]
  omega

/-- Digits do not open IDENTIFIER_RE. -/
lemma isIdentStart_of_digit (c : Char) (h : isAsciiDigit c = true) : isIdentStart c = false := by
  simp only [isAsciiDigit, Bool.and_eq_true, decide_eq_true_eq] at h
  cases hi : isIdentStart c
  · rfl
  · exfalso
    simp only [isIdentStart, Bool.or_eq_true, Bool.and_eq_true, decide_eq_true_eq,
      beq_iff_eq] at hi
    omega

/-- Digits are not punctuation. -/
lemma punctToken_of_digit (c : Char) (h : isAsciiDigit c = true) : punctToken c = none := by
  simp only [punctToken]
  split_ifs with h1 h2 h3 h4 h5
  · subst h1; exact absurd h (by decide)
  · subst h2; exact absurd h (by decide)
  · subst h3; exact absurd h (by decide)
  · subst h4; exact absurd h (by decide)
  · subst h5; exact absurd h (by decide)
  · rfl

/-- A maximal run followed by a failing head splits takeWhile/dropWhile. -/
lemma takeWhile_dropWhile_append (p : Char → Bool) :
    ∀ (l1 l2 : List Char), (∀ c ∈ l1, p c = true) →
      (∀ x, l2.head? = some x → p x = false) →
      List.takeWhile p (l1 ++ l2) = l1 ∧ List.dropWhile p (l1 ++ l2) = l2 := by
  intro l1
  induction l1 with
  | nil =>
    intro l2 h1 h2
    cases l2 with
    | nil => simp
    | cons y ys =>
      have hy := h2 y rfl
      simp [List.takeWhile, List.dropWhile, hy]
  | cons c l1t ih =>
    intro l2 h1 h2
    have hc := h1 c (List.mem_cons_self c l1t)
    have ht := ih l2 (fun x hx => h1 x (List.mem_cons_of_mem c hx)) h2
    simp [List.takeWhile, List.dropWhile, hc, ht.1, ht.2]

/-- CONSTANT_RE on a boundary-terminated digit run: the whole run matches
and the remainder is exactly what follows it. -/
lemma constMatch_append (ds drest : List Char) (hne : ds ≠ [])
    (hdig : ∀ c ∈ ds, isAsciiDigit c = true) (hbound : wordBoundary drest = true) :
    constMatch (ds ++ drest) = some (ds, drest) := by
  cases ds with
  | nil => exact absurd rfl hne
  | cons d ds2 =>
    have hd := hdig d (List.mem_cons_self d ds2)
    have hds2 : ∀ c ∈ ds2, isAsciiDigit c = true :=
      fun c hc => hdig c (List.mem_cons_of_mem d hc)
    have hhead : ∀ x, drest.head? = some x → isAsciiDigit x = false := by
      intro x hx
      cases drest with
      | nil => exact Option.noConfusion hx
      | cons y ys =>
        have hxy : y = x := Option.some.inj hx
        subst hxy
        simp only [wordBoundary, Bool.not_eq_true'] at hbound
        cases hdx : isAsciiDigit y
        · rfl
        · exact absurd (isWordChar_of_digit y hdx) (by simp [hbound])
    obtain ⟨htake, hdrop⟩ := takeWhile_dropWhile_append isAsciiDigit ds2 drest hds2 hhead
    simp only [List.cons_append, constMatch, hd, if_true, hdrop, htake, hbound]

/-! ## Claim theorems -/

/-- C1 (counterexample): the input `"/* never closed"` does NOT produce an
empty successful token list.  The lazy `.*?` of MULTI_LINE_COMMENTS_RE
still requires the literal closing `*/`; with none present the comment
regex does not match at all, the opener is not skipped as trivia, and the
scan fails instead of succeeding. -/
theorem unterminated_comment_not_empty_success :
    tokenize ("/* never closed") ≠ Except.ok ([] : List Token) :=
  fun h => Except.noConfusion h

/-- C1 (amended): on `"/* never closed"` the skipper finds no `*/`, skips
nothing, and recognition fails at the opening `/` with
`UnexpectedCharacter { char: '/', pos: 0 }`. -/
theorem unterminated_comment_yields_unexpected_character :
    tokenize ("/* never closed") =
      Except.error (LexerError.UnexpectedCharacter '/' 0) := rfl

/-- C2: `"123bar"` fails with `UnexpectedCharacter { char: '1', pos: 0 }`:
the digit run is not boundary-terminated (`b` follows), so CONSTANT_RE
fails outright; no `Constant(123)` prefix and no `InvalidInteger` are
produced, and recognition falls through to the unexpected-character case
at the start of the digits. -/
theorem digits_then_letters_unexpected_character :
    tokenize ("123bar") =
      Except.error (LexerError.UnexpectedCharacter '1' 0) := rfl

/-- C3 (code evaluated at the failing input): identifier matching is NOT
ASCII-only.  In the `regex` crate `\w` and `\b` are Unicode-aware by
default, so on `"aé"` the identifier match continues through `é` (U+00E9,
an alphabetic word character) and the scan returns `Identifier("aé")`,
a text that is not made of ASCII letters/digits/underscores — contradicting
the claim (and the comment in core.rs that `\w` is `[a-zA-Z0-9_]`). -/
theorem unicode_word_chars_in_identifier_match :
    tokenize ("aé") = Except.ok [Token.Identifier ("aé")] ∧
      (("aé").data.all specAsciiWordChar) = false := ⟨rfl, rfl⟩

/-- C4: on every boundary-terminated digit run the recognizer advances
past the run and returns `Constant(v)` exactly when the decimal value fits
a 32-bit signed integer, and otherwise `InvalidInteger` carrying the digit
text verbatim and the byte offset where the run starts. -/
theorem constant_recognition_i32_range (pos : Nat) (ds drest : List Char)
    (hne : ds ≠ []) (hdig : ∀ c ∈ ds, isAsciiDigit c = true)
    (hbound : wordBoundary drest = true) :
    recognize (ds ++ drest) pos =
      ((if digitsVal ds ≤ 2147483647 then
          some (Except.ok (Token.Constant (Int.ofNat (digitsVal ds))))
        else
          some (Except.error (LexerError.InvalidInteger (String.mk ds) pos))),
       ⟨drest, pos + utf8Len ds⟩) := by
  cases ds with
  | nil => exact absurd rfl hne
  | cons d ds2 =>
    have hd := hdig d (List.mem_cons_self d ds2)
    have hpunct := punctToken_of_digit d hd
    have hident : identMatch (d :: (ds2 ++ drest)) = none := by
      simp only [identMatch, isIdentStart_of_digit d hd]
      simp
    have hconst := constMatch_append (d :: ds2) drest hne hdig hbound
    simp only [List.cons_append] at hconst ⊢
    simp only [recognize, hpunct, hident, hconst]

/-- C4 witness: `"99999999999"` exceeds 2147483647, so the recognizer
returns `InvalidInteger` with the digit text verbatim at offset 0. -/
theorem constant_recognition_i32_range_witness :
    ((("99999999999").data ≠ []) ∧ (∀ c ∈ ("99999999999").data, isAsciiDigit c = true) ∧
        wordBoundary [] = true) ∧
      recognize (("99999999999").data ++ []) 0 =
        (some (Except.error (LexerError.InvalidInteger (String.mk (("99999999999").data)) 0)),
         ⟨[], 0 + utf8Len (("99999999999").data)⟩) := by
  refine ⟨⟨by decide, by decide, rfl⟩, ?_⟩
  rw [constant_recognition_i32_range 0 (("99999999999").data) [] (by decide) (by decide) rfl]
  rfl

/-- C5: no `Identifier` in any successful scan carries a keyword spelling
(the keyword loop intercepts exact hits), `"int"` alone scans to `KwInt`,
and `"return1"` scans to `Identifier("return1")` and never to `KwReturn`
followed by anything. -/
theorem identifier_never_keyword_spelling :
    (∀ (input : List Char) (ts : List Token) (str : String),
        tokenizeAll input = Except.ok ts → Token.Identifier str ∈ ts →
        str ≠ "int" ∧ str ≠ "void" ∧ str ≠ "return") ∧
      tokenize ("int") = Except.ok [Token.KwInt] ∧
      tokenize ("return1") = Except.ok [Token.Identifier ("return1")] := by
  refine ⟨?_, rfl, rfl⟩
  intro input ts str h hmem
  have hk := tokenizeAllAuxF_identifier (input.length + 1) ⟨input, 0⟩ [] ts h
    (fun str2 hmem2 => absurd hmem2 (List.not_mem_nil _)) str hmem
  exact keywordFind_none_ne str hk

/-- C6: for every input, `tokenize_all` returns either the complete
ordered token list of a scan that ran to end-of-input, or exactly the
first error some recognition step produced — never tokens and an error
together (the result type carries one or the other). -/
theorem tokenize_all_complete_or_first_error (input : List Char) :
    (∃ ts, tokenizeAll input = Except.ok ts ∧ Scans ⟨input, 0⟩ ts) ∨
      (∃ e, tokenizeAll input = Except.error e ∧ ScanFails ⟨input, 0⟩ e) := by
  have h := tokenizeAllAuxF_characterize (input.length + 1) ⟨input, 0⟩ [] (by simp)
  simpa [tokenizeAll] using h

/-- C7: trivia elision is transparent: the commented input scans to
exactly the same token sequence as the spaced-out input, namely
`[KwInt, Identifier "main", OpenParen, CloseParen, OpenBrace, KwReturn,
Constant 0, Semicolon, CloseBrace]`. -/
theorem trivia_elision_transparent :
    tokenize ("int/*c*/ main ( )//line\n\x7b return 0 ; \x7d") =
        tokenize ("int main ( ) \x7b return 0 ; \x7d") ∧
      tokenize ("int main ( ) \x7b return 0 ; \x7d") =
        Except.ok [Token.KwInt, Token.Identifier ("main"), Token.OpenParen, Token.CloseParen,
          Token.OpenBrace, Token.KwReturn, Token.Constant 0, Token.Semicolon,
          Token.CloseBrace] := ⟨rfl, rfl⟩

/-- C8: when a recognizer call reports `UnexpectedCharacter`, the reported
offset is the position of the first non-trivia byte, the cursor ends at
exactly that position with the offending suffix intact (no advance past
the offending character), and the reported `char` is the full codepoint at
the head of that suffix. -/
theorem unexpected_character_frame (s : LexerState) (ch : Char) (p : Nat)
    (h : (nextTokenInternal s).1 =
      some (Except.error (LexerError.UnexpectedCharacter ch p))) :
    p = s.position + (skipTrivia s.rest).1 ∧
      (nextTokenInternal s).2 =
        ⟨(skipTrivia s.rest).2, s.position + (skipTrivia s.rest).1⟩ ∧
      ((skipTrivia s.rest).2).head? = some ch :=
  recognize_unexpectedChar (skipTrivia s.rest).2
    (s.position + (skipTrivia s.rest).1) ch p h

/-- C8 witness: on the input `" €"` (a one-byte space, then the three-byte
euro sign) the recognizer reports the full codepoint `'€'` at byte offset
1 and the cursor stays at offset 1 with `'€'` still unconsumed. -/
theorem unexpected_character_frame_witness :
    ((nextTokenInternal ⟨[' ', '€'], 0⟩).1 =
        some (Except.error (LexerError.UnexpectedCharacter '€' 1))) ∧
      (1 = (⟨[' ', '€'], 0⟩ : LexerState).position + (skipTrivia [' ', '€']).1 ∧
        (nextTokenInternal ⟨[' ', '€'], 0⟩).2 =
          ⟨(skipTrivia [' ', '€']).2,
           (⟨[' ', '€'], 0⟩ : LexerState).position + (skipTrivia [' ', '€']).1⟩ ∧
        ((skipTrivia [' ', '€']).2).head? = some '€') :=
  ⟨rfl, unexpected_character_frame ⟨[' ', '€'], 0⟩ '€' 1 rfl⟩

/-- C9: from any well-formed cursor state, both the trivia skipper and the
recognizer move the position monotonically forward, preserve
well-formedness, and never push the position beyond the input's byte
length. -/
theorem cursor_monotone_bounded (input : List Char) (s : LexerState)
    (h : WFState input s) :
    (s.position ≤ s.position + (skipTrivia s.rest).1 ∧
        s.position + (skipTrivia s.rest).1 + utf8Len (skipTrivia s.rest).2 =
          utf8Len input) ∧
      (s.position ≤ (nextTokenInternal s).2.position ∧
        WFState input (nextTokenInternal s).2 ∧
        (nextTokenInternal s).2.position ≤ utf8Len input) := by
  have h1 := skipTrivia_conserve s.rest
  have h2 := nextTokenInternal_conserve s
  unfold WFState at *
  refine ⟨⟨?_, ?_⟩, ?_, ?_, ?_⟩ <;> omega

/-- C9 witness: the invariant instantiated on the one-character input
`"("` at the initial cursor. -/
theorem cursor_monotone_bounded_witness :
    WFState ['('] ⟨['('], 0⟩ ∧
      (nextTokenInternal ⟨['('], 0⟩).2.position ≤ utf8Len ['('] :=
  ⟨rfl, (cursor_monotone_bounded ['('] ⟨['('], 0⟩ rfl).2.2.2⟩

/-- C10: the defensive `NoMatch` is unreachable: no input makes
`tokenize_all` return it, because a non-empty remainder always yields a
first codepoint, so the fall-through arm that builds `NoMatch` can never
be taken after the end-of-input check. -/
theorem no_match_unreachable (input : List Char) (p : Nat) :
    tokenizeAll input ≠ Except.error (LexerError.NoMatch p) := by
  intro h
  obtain ⟨s3, hs3⟩ := tokenizeAllAuxF_error_from_step (input.length + 1)
    ⟨input, 0⟩ [] (LexerError.NoMatch p) h
  exact nextTokenInternal_no_noMatch s3 p hs3

end ObvLexer
